import Mathlib

/-!
# Verification development for the Zig renderer of quicktype

This file gives a shallow embedding of `packages/quicktype-core/src/language/Zig.ts`
(the Zig target-language renderer) and proves properties of it.  Pure helper
functions from `quicktype-core` that the renderer imports but whose sources are
not part of this snapshot (`TypeUtils.ts`, `support/Strings.ts`, the
`ConvenienceRenderer` iteration helpers) are modelled from the specification;
each such definition says so in its doc comment.
-/

namespace ZigRender

/-- Type-graph nodes as consumed by the renderer (`matchType` dispatch in
`zigType`).  Named types carry their already-resolved names (the renderer only
reads names via `nameForNamedType`); a union additionally carries its member
list, which `nullableFromUnion` inspects. -/
inductive ZType where
  | anyType
  | nullType
  | boolType
  | integerType
  | doubleType
  | stringType
  | arrayType (items : ZType)
  | mapType (values : ZType)
  | classRef (name : String)
  | enumRef (name : String)
  | unionRef (name : String) (members : List ZType)

/-- Whether a type-graph node is the `Null` primitive. -/
def isNull : ZType → Bool
  | .nullType => true
  | _ => false

/-- Modelled from the spec: `removeNullFromUnion` (from `TypeUtils.ts`, which is
not among the sources) factors the `Null` member out of a union's member list,
returning whether a null member was present together with the non-null
members ("first factor out `Null`"). -/
def removeNullFromUnion (members : List ZType) : Bool × List ZType :=
  (members.any (fun t => isNull t), members.filter (fun t => !(isNull t)))

/-- Modelled from the spec: `nullableFromUnion` (from `TypeUtils.ts`, which is
not among the sources) returns the single non-null member of a union that
contains `Null` and exactly one other member ("a union whose only non-null
member is `T` is a nullable-of-`T`"), and nothing otherwise. -/
def nullableFromUnion (members : List ZType) : Option ZType :=
  match removeNullFromUnion members with
  | (true, [t]) => some t
  | _ => none

theorem mem_of_nullableFromUnion {members : List ZType} {t : ZType}
    (h : nullableFromUnion members = some t) : t ∈ members := by
  unfold nullableFromUnion at h
  rcases hm : removeNullFromUnion members with ⟨b, l⟩
  rw [hm] at h
  match b, l, h with
  | true, [u], h =>
    have hu : u = t := by injection h
    subst hu
    have hl : u ∈ (removeNullFromUnion members).2 := by rw [hm]; simp
    exact List.mem_of_mem_filter hl

theorem nullableFromUnion_eq_none_of_two {members : List ZType}
    (h : 2 ≤ ((removeNullFromUnion members).2).length) :
    nullableFromUnion members = none := by
  unfold nullableFromUnion
  rcases hm : removeNullFromUnion members with ⟨b, l⟩
  rw [hm] at h
  simp only at h
  match b, l, h with
  | false, l, h => rfl
  | true, [], h => rfl
  | true, [t], h => simp at h
  | true, t :: u :: l, h => rfl

/-- `zigType` (Zig.ts, lines 261–289): the exhaustive type-to-text dispatch.
Annotations (`maybeAnnotated`) only attach issue markers and do not change the
rendered text, so `any` and `null` render as their placeholder fragments for
either value of `withIssues`. -/
def zigType (withIssues : Bool) : ZType → String
  | .anyType => "std.json.Value"
  | .nullType => "?[]u8"
  | .boolType => "bool"
  | .integerType => "i64"
  | .doubleType => "f64"
  | .stringType => "[]u8"
  | .arrayType items => "[]" ++ zigType withIssues items
  | .classRef name => name
  | .mapType values =>
      let valueSource :=
        match values with
        | .unionRef n members =>
            match nullableFromUnion members with
            | none => "?" ++ n
            | some _ => zigType withIssues (.unionRef n members)
        | v => zigType withIssues v
      "std.StringHashMap(" ++ valueSource ++ ")"
  | .enumRef name => name
  | .unionRef n members =>
      match h : nullableFromUnion members with
      | some t => "?" ++ zigType withIssues t
      | none => n
termination_by t => sizeOf t
decreasing_by
  all_goals simp_wf
  have hlt := List.sizeOf_lt_of_mem (mem_of_nullableFromUnion h)
  omega

/-- The resolved name of a directly named (class or enum) type-graph node, as
`nameForNamedType` would emit it. -/
def namedRefName : ZType → Option String
  | .classRef n => some n
  | .enumRef n => some n
  | _ => none

/-- `nullableZigType` (Zig.ts, lines 248–251): prefix the rendering of `t`
with `?`. -/
def nullableZigType (t : ZType) (withIssues : Bool) : String :=
  "?" ++ zigType withIssues t

/-- A class property as handed to `propertyZigType` (type plus the optional
flag). -/
structure ClassProperty where
  type : ZType
  isOptional : Bool

/-- `propertyZigType` (Zig.ts, lines 253–259): an optional property is wrapped
with `nullableZigType`, a required one renders directly; both with
`withIssues` set. -/
def propertyZigType (prop : ClassProperty) : String :=
  if prop.isOptional then nullableZigType prop.type true
  else zigType true prop.type

theorem zigType_union_some {wi : Bool} {n : String} {members : List ZType}
    {t : ZType} (h : nullableFromUnion members = some t) :
    zigType wi (.unionRef n members) = "?" ++ zigType wi t := by
  rw [zigType]
  split
  · rename_i t' heq
    rw [h] at heq
    injection heq with heq
    rw [heq]
  · rename_i heq
    rw [h] at heq
    exact absurd heq (by simp)

theorem zigType_union_none {wi : Bool} {n : String} {members : List ZType}
    (h : nullableFromUnion members = none) :
    zigType wi (.unionRef n members) = n := by
  rw [zigType]
  split
  · rename_i t' heq
    rw [h] at heq
    exact absurd heq (by simp)
  · rfl

/-- Concatenation of the line lists produced for each element (the emission
loops of the renderer). -/
def concatMap (f : α → List β) : List α → List β
  | [] => []
  | a :: as => f a ++ concatMap f as

/-- `visibility` (Zig.ts, lines 212–214): `pub` when the `public` option is
set, the empty modifier otherwise. -/
def visibility (pub : Bool) : String :=
  if pub then "pub" else ""

/-- One level of indentation (`defaultIndentation`, four spaces) as applied by
`this.indent`; a blank line receives no indentation. -/
def indentLine (s : String) : String :=
  if s = "" then s else "    " ++ s

/-- Indent every line of a block body by one level. -/
def indentLines (ls : List String) : List String :=
  ls.map indentLine

/-- `emitBlock` (Zig.ts, lines 216–220): the preamble followed by an opening
brace, the indented body, and a closing brace followed by `last`. -/
def emitBlockLines (preamble : String) (last : String) (body : List String) : List String :=
  ((preamble ++ "\x7b") :: indentLines body) ++ ["\x7d" ++ last]

/-- `fieldAttributesLine` (inside `emitGettyBlock`): the rename attribute for
one external key. -/
def fieldAttributesLine (jsonName : String) : String :=
  ".rename = \"" ++ jsonName ++ "\","

/-- `attributesBlock` (inside `emitGettyBlock`): one line per rename entry.
The insertion-ordered `Map<Name, string>` of the source is modelled as an
association list of (resolved identifier, external key) pairs. -/
def attributesBlockLines (renameFields : List (String × String)) : List String :=
  renameFields.map (fun p => "." ++ p.1 ++ " = .\x7b " ++ fieldAttributesLine p.2 ++ " \x7d,")

/-- `attributes` (inside `emitGettyBlock`): the `attributes` constant block. -/
def attributesLines (vis : String) (renameFields : List (String × String)) : List String :=
  emitBlockLines (vis ++ " const attributes = .") ";" (attributesBlockLines renameFields)

/-- `emitGettyBlock` (Zig.ts, lines 222–237): a `getty.sb` (serialize) or
`getty.db` (deserialize) struct wrapping the attributes block.  `vis` is the
string returned by `visibility`. -/
def emitGettyBlockLines (vis : String) (renameFields : List (String × String))
    (isSerialize : Bool) : List String :=
  let extension := if isSerialize then "sb" else "db"
  emitBlockLines (vis ++ " const @\"getty." ++ extension ++ "\" = struct ") ";"
    (attributesLines vis renameFields)

/-- `emitSerdeBlocks` (Zig.ts, lines 239–246): when the rename table is
non-empty, a blank line, the deserialization block, a blank line and the
serialization block; nothing otherwise. -/
def emitSerdeBlocksLines (vis : String) (renameFields : List (String × String)) : List String :=
  if renameFields.length > 0 then
    [""] ++ emitGettyBlockLines vis renameFields false
      ++ [""] ++ emitGettyBlockLines vis renameFields true
  else []

/-- A class property as iterated by `forEachClassProperty`: the resolved
identifier, the external (JSON) key, the rendered description comment lines
(empty when there is no description) and the property itself. -/
structure ZField where
  name : String
  jsonName : String
  descLines : List String
  prop : ClassProperty

/-- A class declaration with its resolved name, description lines and ordered
properties. -/
structure ZClassDecl where
  name : String
  descLines : List String
  props : List ZField

/-- The rename table accumulated by `emitStruct`/`emitEnum`: a pair is
recorded exactly when the resolved identifier differs from the external key
(`this.sourcelikeToString(name) !== jsonName`).  Resolved names within one
declaration are pairwise distinct, so the insertion-ordered map is the ordered
list of differing pairs. -/
def renamePairs (pairs : List (String × String)) : List (String × String) :=
  pairs.filter (fun p => p.1 != p.2)

/-- The rename table of a class declaration. -/
def classRenameFields (props : List ZField) : List (String × String) :=
  renamePairs (props.map (fun f => (f.name, f.jsonName)))

/-- The body of `emitStruct` (Zig.ts, lines 295–305): for every property its
description and `name: type,` line, followed by the serde blocks. -/
def structBodyLines (vis : String) (props : List ZField) : List String :=
  concatMap (fun f => f.descLines ++ [f.name ++ ": " ++ propertyZigType f.prop ++ ","]) props
    ++ emitSerdeBlocksLines vis (classRenameFields props)

/-- `emitStruct` (Zig.ts, lines 294–307). -/
def emitStructLines (vis : String) (c : ZClassDecl) : List String :=
  emitBlockLines (vis ++ " const " ++ c.name ++ " = struct ") ";" (structBodyLines vis c.props)

/-- `emitClass` (Zig.ts, lines 309–312): the class description followed by the
struct. -/
def emitClassLines (vis : String) (c : ZClassDecl) : List String :=
  c.descLines ++ emitStructLines vis c

/-- An enum declaration: resolved name, description lines, and ordered cases
as (resolved case identifier, external value) pairs. -/
structure ZEnumDecl where
  name : String
  descLines : List String
  cases : List (String × String)

/-- The body of `emitEnum` (Zig.ts, lines 317–326): one `name,` line per case
followed by the serde blocks. -/
def enumBodyLines (vis : String) (cases : List (String × String)) : List String :=
  cases.map (fun p => p.1 ++ ",") ++ emitSerdeBlocksLines vis (renamePairs cases)

/-- `emitEnum` (Zig.ts, lines 314–328). -/
def emitEnumLines (vis : String) (e : ZEnumDecl) : List String :=
  e.descLines ++ emitBlockLines (vis ++ " const " ++ e.name ++ " = enum ") ";"
    (enumBodyLines vis e.cases)

/-- A union declaration: resolved name, description lines, and the non-null
members with their resolved member names, in order.  (`emitUnion` iterates
`forEachUnionMember` over the non-null members computed by
`removeNullFromUnion`; the name assignment is done by the naming machinery of
`ConvenienceRenderer`, which supplies the pairs.) -/
structure ZUnionDecl where
  name : String
  descLines : List String
  members : List (String × ZType)

/-- `emitUnion` (Zig.ts, lines 330–340): a `union(enum)` block with one
`fieldName: type,` line per non-null member. -/
def emitUnionLines (vis : String) (u : ZUnionDecl) : List String :=
  u.descLines ++ emitBlockLines (vis ++ " const " ++ u.name ++ " = union(enum)") ";"
    (u.members.map (fun m => m.1 ++ ": " ++ zigType false m.2 ++ ","))

/-- The per-file emission state of the renderer: the currently open filename
(`_currentFilename`), the lines of the currently open buffer, and the
finished-files collection keyed by filename. -/
structure FileState where
  currentFilename : Option String
  currentLines : List String
  finishedFiles : List (String × List String)

/-- Modelled from the ECMAScript runtime: `String.prototype.toLowerCase` as
per-character lower-casing (the filenames involved are ASCII). -/
def jsToLower (s : String) : String :=
  String.mk (s.data.map Char.toLower)

theorem string_data_append (s t : String) : (s ++ t).data = s.data ++ t.data := by
  cases s
  cases t
  rfl

theorem jsToLower_append (s t : String) :
    jsToLower (s ++ t) = jsToLower s ++ jsToLower t := by
  cases s with
  | mk a =>
    cases t with
    | mk b =>
      show String.mk ((a ++ b).map Char.toLower)
        = String.mk (a.map Char.toLower ++ b.map Char.toLower)
      rw [List.map_append]

/-- `startFile` (Zig.ts, lines 198–204): the `assert` fails fatally when a
previous file was not finished; otherwise the basename with `.zig` appended is
lower-cased, made current, and a fresh emit context is initialized for it.
The fatal assertion is modelled as `Except.error`. -/
def startFile (basename : String) (st : FileState) : Except String FileState :=
  match st.currentFilename with
  | some prev => .error ("Previous file wasn't finished: " ++ prev)
  | none =>
      .ok { currentFilename := some (jsToLower (basename ++ ".zig")),
            currentLines := [],
            finishedFiles := st.finishedFiles }

/-- `endFile` (Zig.ts, lines 207–210): `defined` fatally rejects an absent
current filename; otherwise the open buffer is moved into the finished-files
collection keyed by the current filename, which is then reset. -/
def endFile (st : FileState) : Except String FileState :=
  match st.currentFilename with
  | none => .error "Defined value expected, but got undefined"
  | some fn =>
      .ok { currentFilename := none,
            currentLines := [],
            finishedFiles := st.finishedFiles ++ [(fn, st.currentLines)] }

/-- Emission is modelled with a reverse accumulator: the head of the
accumulator is the most recently emitted line.  `pushLines` emits the given
lines in order. -/
def pushLines (ls : List String) (acc : List String) : List String :=
  ls.reverse ++ acc

/-- Whether the output position is at a blank line: no line has been emitted
yet, or the last emitted line is blank. -/
def atBlank : List String → Bool
  | [] => true
  | s :: _ => s == ""

/-- Modelled from the spec: `ensureBlankLine` of the base renderer emits a
blank line unless the output is already at one (blank lines are never
duplicated). -/
def ensureBlank (acc : List String) : List String :=
  if atBlank acc then acc else "" :: acc

/-- Modelled from the spec: iteration in `leading-and-interposing` blank-line
mode (used by `forEachObject`, `forEachUnion`, `forEachEnum`): a blank line is
ensured before the first item and between items, i.e. before every item. -/
def forEachLeadingInterposing (items : List (List String)) (acc : List String) : List String :=
  items.foldl (fun acc ls => pushLines ls (ensureBlank acc)) acc

/-- Modelled from the spec: iteration in `leading` blank-line mode (used by
`forEachTopLevel`): a blank line is ensured before the first item only. -/
def forEachLeading (items : List (List String)) (acc : List String) : List String :=
  match items with
  | [] => acc
  | first :: rest =>
      rest.foldl (fun acc ls => pushLines ls acc) (pushLines first (ensureBlank acc))

/-- `emitTopLevel` (Zig.ts, lines 291–292): the per-top-level emission
function has an empty body and emits nothing. -/
def emitTopLevelLines (_t : ZType) (_name : String) : List String :=
  []

/-- Modelled from the spec: `namedTypeToNameForTopLevel` of the base renderer
yields the resolved name when the top-level's root is itself backed by a named
declaration, and nothing for a pure alias. -/
def namedTypeToNameForTopLevel : ZType → Option String
  | .classRef n => some n
  | .enumRef n => some n
  | .unionRef n _ => some n
  | _ => none

/-- The fully named and resolved input to `emitSourceStructure`: the named top
levels and the class, union and enum declarations in graph order. -/
structure ZigGraph where
  topLevels : List (String × ZType)
  classes : List ZClassDecl
  unions : List ZUnionDecl
  enums : List ZEnumDecl

/-- The prelude/import line of `emitSourceStructure`. -/
def preludeLine : String :=
  "const std = @import(\"std\");"

/-- The generated default explanatory comment of `emitLeadingComments`
(Zig.ts, lines 349–360), interpolating the combined name of the first top
level. -/
def defaultCommentLines (topLevelName : String) : List String :=
  [ "// Example code showing how to deserialize a model using \"getty-zig/json\".",
    "//",
    "// const std = @import(\"std\");",
    "// const json = @import(\"json\");",
    "//",
    "// pub fn main() anyerror!void \x7b",
    "//    const json_string = \"...\";",
    "//    const model = try json.fromSlice(null, " ++ topLevelName ++ ", json_string);",
    "//    std.debug.print(\"\x7bany\x7d\\n\", .\x7bmodel\x7d);",
    "// \x7d" ]

/-- `emitLeadingComments` (Zig.ts, lines 342–361): caller-supplied leading
comments are emitted when present (modelled from the spec as verbatim lines,
`emitCommentLines` being part of the base renderer), otherwise the generated
default comment; `defined(mapFirst(this.topLevels))` fails fatally when there
is no top level, modelled as `none`.  The combined name of the first top
level's `Name` is modelled as the stored top-level name. -/
def emitLeadingCommentsLines (lc : Option (List String)) (g : ZigGraph) :
    Option (List String) :=
  match lc with
  | some ls => some ls
  | none =>
      match g.topLevels with
      | [] => none
      | (name, _) :: _ => some (defaultCommentLines name)

/-- The top levels that are not backed by a named declaration, i.e. those an
`emitTopLevel` call is made for (the predicate passed to `forEachTopLevel` in
`emitSourceStructure`). -/
def aliasTopLevels (g : ZigGraph) : List (String × ZType) :=
  g.topLevels.filter (fun tl => (namedTypeToNameForTopLevel tl.2).isNone)

/-- `emitSourceStructure` (Zig.ts, lines 363–377): leading comments, a blank
line, the prelude, the top levels without a named declaration in `leading`
mode, then all classes, all unions and all enums in `leading-and-interposing`
mode. -/
def emitSourceStructureLines (lc : Option (List String)) (vis : String) (g : ZigGraph) :
    Option (List String) :=
  match emitLeadingCommentsLines lc g with
  | none => none
  | some cs =>
      let acc0 := pushLines cs []
      let acc1 := pushLines [""] acc0
      let acc2 := pushLines [preludeLine] acc1
      let acc3 := forEachLeading
        ((aliasTopLevels g).map (fun tl => emitTopLevelLines tl.2 tl.1)) acc2
      let acc4 := forEachLeadingInterposing (g.classes.map (fun c => emitClassLines vis c)) acc3
      let acc5 := forEachLeadingInterposing (g.unions.map (fun u => emitUnionLines vis u)) acc4
      let acc6 := forEachLeadingInterposing (g.enums.map (fun e => emitEnumLines vis e)) acc5
      some acc6.reverse

/-- The expected forward-order form of a sequence of declaration blocks with a
blank line interposed before each block, except before the first when the
output is already at a blank line. -/
def seqBlocks : Bool → List (List String) → List String
  | _, [] => []
  | prevBlank, b :: rest =>
      (if prevBlank then [] else [""]) ++ b ++ seqBlocks false rest

/-- All declaration blocks of a graph in emission order: classes, then
unions, then enums. -/
def declBlocks (vis : String) (g : ZigGraph) : List (List String) :=
  g.classes.map (fun c => emitClassLines vis c)
    ++ g.unions.map (fun u => emitUnionLines vis u)
    ++ g.enums.map (fun e => emitEnumLines vis e)

/-- A sample class declaration with one renamed field, used to evaluate the
emitter on concrete input. -/
def personDecl : ZClassDecl :=
  ⟨"Person", [], [⟨"user_name", "user-name", [], ⟨ZType.stringType, false⟩⟩]⟩

/-- A sample enum declaration with one renamed case, used to evaluate the
emitter on concrete input. -/
def colorEnum : ZEnumDecl :=
  ⟨"Color", [], [("red", "RED"), ("green", "green")]⟩

/-- A sample graph with one named top level and one class declaration, used to
evaluate the driver on concrete input. -/
def sampleGraph : ZigGraph :=
  { topLevels := [("TopLevel", ZType.classRef "TopLevel")],
    classes := [personDecl],
    unions := [],
    enums := [] }

/-- The Zig reserved keywords (Zig.ts, lines 56–106). -/
def keywords : List String :=
  [ "addrspace", "align", "allowzero", "and", "anyframe", "anytype", "asm",
    "async", "await", "break", "callconv", "catch", "comptime", "const",
    "continue", "defer", "else", "enum", "errdefer", "error", "export",
    "extern", "fn", "for", "if", "inline", "noalias", "nosuspend", "noinline",
    "opaque", "or", "orelse", "packed", "pub", "resume", "return",
    "linksection", "struct", "suspend", "switch", "test", "threadlocal",
    "try", "union", "unreachable", "usingnamespace", "var", "volatile",
    "while" ]

/-- The characters a legal identifier may contain (`isLetterOrUnderscoreOrDigit`
from `support/Strings.ts`, restricted to ASCII as the spec's legalization
step demands). -/
def isLetterOrUnderscoreOrDigit (c : Char) : Bool :=
  c.isAlphanum || c == '_'

/-- `isAsciiLetterOrUnderscore` (Zig.ts, lines 111–117): the legal start
characters (`Char.isAlpha` is ASCII-only). -/
def isAsciiLetterOrUnderscore (c : Char) : Bool :=
  c.isAlpha || c == '_'

/-- `legalizeName = legalizeCharacters(isLetterOrUnderscoreOrDigit)` (Zig.ts,
line 119).  Modelled from the spec: `legalizeCharacters` (from
`support/Strings.ts`, not among the sources) replaces every character outside
letter/underscore/digit. -/
def legalizeName (w : List Char) : List Char :=
  w.map (fun c => if isLetterOrUnderscoreOrDigit c then c else '_')

/-- A word character of the splitter: an ASCII letter or digit; everything
else (punctuation, underscore, whitespace) separates words. -/
def isWordChar (c : Char) : Bool :=
  c.isAlphanum

/-- Whether a word boundary lies between `prev` and `c` (`next` is the
character after `c`): at a lower-to-upper case boundary, at a letter/digit
transition, and inside an upper-case run right before its last letter when a
lower-case letter follows (acronym handling). -/
def isBoundary (prev c : Char) (next : Option Char) : Bool :=
  (prev.isLower && c.isUpper)
    || (prev.isAlpha && c.isDigit)
    || (prev.isDigit && c.isAlpha)
    || (prev.isUpper && c.isUpper &&
          (match next with
           | some d => d.isLower
           | none => false))

/-- The splitter loop: `cur` holds the reversed characters of the word being
accumulated. -/
def splitGo (cur : List Char) : List Char → List (List Char)
  | [] => if cur.isEmpty then [] else [cur.reverse]
  | c :: rest =>
      if isWordChar c then
        match cur with
        | [] => splitGo [c] rest
        | p :: _ =>
            if isBoundary p c rest.head? then cur.reverse :: splitGo [c] rest
            else splitGo (c :: cur) rest
      else
        if cur.isEmpty then splitGo [] rest
        else cur.reverse :: splitGo [] rest

/-- Modelled from the spec: `splitIntoWords` (from `support/Strings.ts`, not
among the sources) splits the original into word tokens at case boundaries,
punctuation, and digit/letter transitions. -/
def splitIntoWords (s : String) : List (List Char) :=
  splitGo [] s.data

/-- Modelled from the spec: the snake word style lower-cases every word. -/
def allLowerWordStyle (w : List Char) : List Char :=
  w.map Char.toLower

/-- Modelled from the spec: the declaration (Pascal) word style upper-cases
the first letter of every word. -/
def firstUpperWordStyle : List Char → List Char
  | [] => []
  | c :: cs => c.toUpper :: cs

/-- The word style selected by `zigNameStyle`: `allLowerWordStyle` for snake
case, `firstUpperWordStyle` otherwise (Zig.ts, line 124). -/
def styleWord (isSnakeCase : Bool) (w : List Char) : List Char :=
  if isSnakeCase then allLowerWordStyle w else firstUpperWordStyle w

/-- Join the styled words with the separator. -/
def joinWords (sep : List Char) : List (List Char) → List Char
  | [] => []
  | [w] => w
  | w :: ws => w ++ sep ++ joinWords sep ws

/-- Modelled from the spec: `combineWords` (from `support/Strings.ts`, not
among the sources) legalizes and styles every word, joins with the separator
(`"_"` for snake case, nothing otherwise — Zig.ts, line 133), and prefixes an
underscore when the first character is not a legal start character. -/
def combineWords (isSnakeCase : Bool) (words : List (List Char)) : List Char :=
  let styled := words.map (fun w => styleWord isSnakeCase (legalizeName w))
  let joined := joinWords (if isSnakeCase then ['_'] else []) styled
  match joined with
  | [] => []
  | c :: _ => if isAsciiLetterOrUnderscore c then joined else '_' :: joined

/-- The `combined` intermediate value of `zigNameStyle` (Zig.ts, lines
126–135). -/
def combinedStyle (original : String) (isSnakeCase : Bool) : String :=
  String.mk (combineWords isSnakeCase (splitIntoWords original))

/-- `zigNameStyle` (Zig.ts, lines 121–138): the split/style/combine pipeline
followed by the sentinel guard, which replaces exactly the single underscore
`"_"` with `"_underscore"`. -/
def zigNameStyle (original : String) (isSnakeCase : Bool) : String :=
  let combined := combinedStyle original isSnakeCase
  if combined = "_" then "_underscore" else combined

/-- `snakeNamingFunction` (Zig.ts, line 108): the proposed-name function of
the snake-case namer. -/
def snakeNamingFunction (original : String) : String :=
  zigNameStyle original true

/-- `camelNamingFunction` (Zig.ts, line 109): the proposed-name function of
the declaration-case namer. -/
def camelNamingFunction (original : String) : String :=
  zigNameStyle original false

/-- The names a namespace additionally forbids and whether the global
forbidden names are included (`ForbiddenWordsInfo`). -/
structure ForbiddenWordsInfo where
  names : List String
  includeGlobalForbidden : Bool

/-- `forbiddenNamesForGlobalNamespace` (Zig.ts, lines 181–183): the keyword
list. -/
def forbiddenNamesForGlobalNamespace : List String :=
  keywords

/-- `forbiddenForObjectProperties` (Zig.ts, lines 185–187). -/
def forbiddenForObjectProperties : ForbiddenWordsInfo :=
  { names := [], includeGlobalForbidden := true }

/-- `forbiddenForUnionMembers` (Zig.ts, lines 189–191). -/
def forbiddenForUnionMembers : ForbiddenWordsInfo :=
  { names := [], includeGlobalForbidden := true }

/-- `forbiddenForEnumCases` (Zig.ts, lines 193–195). -/
def forbiddenForEnumCases : ForbiddenWordsInfo :=
  { names := [], includeGlobalForbidden := true }

/-- The four namer roles of the renderer. -/
inductive ZigNamespace where
  | typeNames
  | objectProperties
  | unionMembers
  | enumCases

/-- Which style each namer uses (Zig.ts, lines 165–179): the type namer is
the declaration-case namer, the other three are snake-case namers. -/
def namerIsSnake : ZigNamespace → Bool
  | .typeNames => false
  | .objectProperties => true
  | .unionMembers => true
  | .enumCases => true

/-- The forbidden-words information of each namespace; the global namespace
(type names) is forbidden its own seed list directly. -/
def forbiddenInfoFor : ZigNamespace → ForbiddenWordsInfo
  | .typeNames => { names := [], includeGlobalForbidden := true }
  | .objectProperties => forbiddenForObjectProperties
  | .unionMembers => forbiddenForUnionMembers
  | .enumCases => forbiddenForEnumCases

/-- The forbidden set a namer resolves against: the global keywords (when
included), the namespace's own forbidden names, and the names already
assigned in the same namespace. -/
def effectiveForbidden (ns : ZigNamespace) (assigned : List String) : List String :=
  (if (forbiddenInfoFor ns).includeGlobalForbidden then forbiddenNamesForGlobalNamespace
   else [])
    ++ (forbiddenInfoFor ns).names ++ assigned

/-- The `k`-th disambiguation candidate for a proposed name. -/
def nameCandidate (proposed : String) (k : Nat) : String :=
  proposed ++ String.mk (List.replicate k 'x')

/-- Modelled from the spec: the collision resolution of the naming machinery —
"on collision, apply a deterministic disambiguation strategy (e.g., numeric
suffixing) — exact suffixing policy is an implementation choice but must be
stable and exhaustive (never loop indefinitely)".  Suffixing is modelled by
appending letters; by the pigeonhole principle a free candidate exists among
the first `forbidden.length + 1`. -/
def resolveName (proposed : String) (forbidden : List String) : String :=
  match (List.range (forbidden.length + 1)).find?
      (fun k => !(forbidden.contains (nameCandidate proposed k))) with
  | some k => nameCandidate proposed k
  | none => proposed

/-- The identifier a namer assigns: the styled proposal resolved against the
namespace's effective forbidden set. -/
def assignName (ns : ZigNamespace) (original : String) (assigned : List String) : String :=
  resolveName (zigNameStyle original (namerIsSnake ns)) (effectiveForbidden ns assigned)

/-- The identifier grammar `[A-Za-z_][A-Za-z0-9_]*` on character lists. -/
def isLegalIdentChars : List Char → Bool
  | [] => false
  | c :: rest => (c.isAlpha || c == '_') && rest.all (fun d => d.isAlphanum || d == '_')

/-- The identifier grammar `[A-Za-z_][A-Za-z0-9_]*`. -/
def isLegalIdentifier (s : String) : Bool :=
  isLegalIdentChars s.data

/-- C1: for every `Map` node whose value type is a union that contains `Null`
and whose non-null members collapse to a single named type, `zigType` renders
the map with value type optional-of-that-named-type (`std.StringHashMap(?Name)`),
not a reference to a synthetic tagged variant for the union. -/
theorem c1_map_of_nullable_named_union (wi : Bool) (un nm : String)
    (members : List ZType) (t : ZType)
    (h : nullableFromUnion members = some t) (hn : namedRefName t = some nm) :
    zigType wi (.mapType (.unionRef un members)) =
      "std.StringHashMap(?" ++ nm ++ ")" := by
  have hcases : t = ZType.classRef nm ∨ t = ZType.enumRef nm := by
    cases t <;> simp [namedRefName] at hn <;> simp [hn]
  have key : zigType wi t = nm := by
    rcases hcases with rfl | rfl <;> simp [zigType]
  rw [zigType]
  simp only [h, key, zigType_union_some h]
  rw [← String.append_assoc]
  rfl

/-- Witness for C1: a map of `Union { Null, ClassRef Foo }` renders as
`std.StringHashMap(?Foo)`. -/
theorem c1_witness :
    zigType false (.mapType (.unionRef "U" [ZType.nullType, ZType.classRef "Foo"])) =
      "std.StringHashMap(?Foo)" := by
  have := c1_map_of_nullable_named_union false "U" "Foo"
    [ZType.nullType, ZType.classRef "Foo"] (ZType.classRef "Foo") rfl rfl
  exact this.trans rfl

/-- C2: a union containing `Null` with exactly one non-null member `T` renders
as `?`-prefixed `T` (never as a reference to a one-armed tagged variant), and a
union with two or more non-null members renders as a reference to the union's
resolved name. -/
theorem c2_union_rendering (wi : Bool) (un : String) (members : List ZType) :
    (∀ t : ZType, nullableFromUnion members = some t →
        zigType wi (.unionRef un members) = "?" ++ zigType wi t)
    ∧ (2 ≤ ((removeNullFromUnion members).2).length →
        zigType wi (.unionRef un members) = un) := by
  constructor
  · intro t h
    exact zigType_union_some h
  · intro h2
    exact zigType_union_none (nullableFromUnion_eq_none_of_two h2)

/-- Witness for C2: `Union { Null, Bool }` renders as `?bool`, while a union
with the two non-null members `Bool` and `String` renders as its resolved
name. -/
theorem c2_witness :
    (zigType false (.unionRef "U" [ZType.nullType, ZType.boolType]) = "?bool")
    ∧ (2 ≤ ((removeNullFromUnion [ZType.boolType, ZType.stringType]).2).length
        ∧ zigType false (.unionRef "V" [ZType.boolType, ZType.stringType]) = "V") := by
  refine ⟨?_, ?_, ?_⟩
  · have hb : zigType false ZType.boolType = "bool" := by simp [zigType]
    have := (c2_union_rendering false "U" [ZType.nullType, ZType.boolType]).1
      ZType.boolType rfl
    rw [hb] at this
    exact this.trans rfl
  · decide
  · exact (c2_union_rendering false "V" [ZType.boolType, ZType.stringType]).2 (by decide)

/-- C10: an optional class property whose type is a union containing `Null`
with exactly one non-null member `T` renders with two optional wrappers
(`??T`): the property-optionality wrapper on top of the nullable-union
flattening wrapper, never collapsed into one. -/
theorem c10_double_optional (un : String) (members : List ZType) (t : ZType)
    (h : nullableFromUnion members = some t) :
    propertyZigType ⟨ZType.unionRef un members, true⟩ = "??" ++ zigType true t := by
  simp only [propertyZigType, nullableZigType, if_pos, zigType_union_some h]
  rw [← String.append_assoc]
  rfl

/-- Witness for C10: an optional property of type `Union { Null, ClassRef Foo }`
renders as `??Foo`. -/
theorem c10_witness :
    propertyZigType ⟨ZType.unionRef "U" [ZType.nullType, ZType.classRef "Foo"], true⟩ =
      "??Foo" := by
  have hf : zigType true (ZType.classRef "Foo") = "Foo" := by simp [zigType]
  have := c10_double_optional "U" [ZType.nullType, ZType.classRef "Foo"]
    (ZType.classRef "Foo") rfl
  rw [hf] at this
  exact this.trans rfl

/-- C3: for a class or enum declaration, a rename entry (resolved identifier,
external key) is recorded if and only if the resolved identifier differs from
the external key, and the serde metadata blocks are emitted if and only if the
rename table is non-empty (a declaration with no renames emits no metadata at
all). -/
theorem c3_rename_table (vis : String) (props : List ZField)
    (cases : List (String × String)) :
    (∀ p k : String, (p, k) ∈ classRenameFields props ↔
        ((p, k) ∈ props.map (fun f => (f.name, f.jsonName)) ∧ p ≠ k))
    ∧ (∀ p k : String, (p, k) ∈ renamePairs cases ↔ ((p, k) ∈ cases ∧ p ≠ k))
    ∧ (emitSerdeBlocksLines vis (classRenameFields props) = [] ↔
        classRenameFields props = [])
    ∧ (emitSerdeBlocksLines vis (renamePairs cases) = [] ↔
        renamePairs cases = []) := by
  have hserde : ∀ r : List (String × String),
      emitSerdeBlocksLines vis r = [] ↔ r = [] := by
    intro r
    cases r with
    | nil => simp [emitSerdeBlocksLines]
    | cons a as => simp [emitSerdeBlocksLines]
  refine ⟨?_, ?_, hserde _, hserde _⟩
  · intro p k
    simp [classRenameFields, renamePairs, List.mem_filter]
  · intro p k
    simp [renamePairs, List.mem_filter]

/-- Witness for C3: a field styled `user_name` for external key `user-name` is
recorded, and a declaration whose only field keeps its key emits no serde
metadata. -/
theorem c3_witness :
    (("user_name", "user-name") ∈
        classRenameFields [⟨"user_name", "user-name", [], ⟨ZType.stringType, false⟩⟩])
    ∧ emitSerdeBlocksLines "pub"
        (classRenameFields [⟨"id", "id", [], ⟨ZType.integerType, true⟩⟩]) = [] := by
  constructor
  · exact ((c3_rename_table "pub"
      [⟨"user_name", "user-name", [], ⟨ZType.stringType, false⟩⟩] []).1
      "user_name" "user-name").mpr ⟨by decide, by decide⟩
  · exact ((c3_rename_table "pub"
      [⟨"id", "id", [], ⟨ZType.integerType, true⟩⟩] []).2.2.1).mpr (by decide)

theorem gettyBlocks_shape (vis : String) (r : List (String × String)) :
    (emitGettyBlockLines vis r false).head? =
        some (vis ++ " const @\"getty.db\" = struct \x7b")
    ∧ (emitGettyBlockLines vis r true).head? =
        some (vis ++ " const @\"getty.sb\" = struct \x7b")
    ∧ (emitGettyBlockLines vis r false).tail = (emitGettyBlockLines vis r true).tail
    ∧ (∀ p k : String, (p, k) ∈ r →
        ("        ." ++ p ++ " = .\x7b .rename = \"" ++ k ++ "\", \x7d,")
          ∈ emitGettyBlockLines vis r false) := by
  refine ⟨?_, ?_, ?_, ?_⟩
  · simp only [emitGettyBlockLines, emitBlockLines, List.head?]
    simp [String.append_assoc]
  · simp only [emitGettyBlockLines, emitBlockLines, List.head?]
    simp [String.append_assoc]
  · simp only [emitGettyBlockLines, emitBlockLines]
    simp
  · intro p k hpk
    have hentry : ("." ++ p ++ " = .\x7b " ++ fieldAttributesLine k ++ " \x7d,")
        ∈ attributesBlockLines r := by
      simp only [attributesBlockLines]
      exact List.mem_map_of_mem _ hpk
    have hindent : indentLine (indentLine ("." ++ p ++ " = .\x7b " ++ fieldAttributesLine k ++ " \x7d,"))
        ∈ indentLines (attributesLines vis r) := by
      simp only [attributesLines, emitBlockLines, indentLines]
      refine List.mem_map_of_mem _ ?_
      exact List.mem_cons_of_mem _ (List.mem_append_left _ (List.mem_map_of_mem _ hentry))
    have hmem : indentLine (indentLine ("." ++ p ++ " = .\x7b " ++ fieldAttributesLine k ++ " \x7d,"))
        ∈ emitGettyBlockLines vis r false := by
      simp only [emitGettyBlockLines, emitBlockLines]
      exact List.mem_cons_of_mem _ (List.mem_append_left _ hindent)
    have hform : indentLine (indentLine ("." ++ p ++ " = .\x7b " ++ fieldAttributesLine k ++ " \x7d,"))
        = "        ." ++ p ++ " = .\x7b .rename = \"" ++ k ++ "\", \x7d," := by
      simp only [indentLine, fieldAttributesLine]
      have h1 : ("." ++ p ++ " = .\x7b " ++ (".rename = \"" ++ k ++ "\",") ++ " \x7d,") ≠ "" := by
        intro hcontra
        have hl := congrArg String.length hcontra
        simp [String.length_append] at hl
        exact absurd hl.1.1.1.1 (by decide)
      rw [if_neg h1]
      have h2 : ("    " ++ ("." ++ p ++ " = .\x7b " ++ (".rename = \"" ++ k ++ "\",") ++ " \x7d,")) ≠ "" := by
        intro hcontra
        have hl := congrArg String.length hcontra
        simp [String.length_append] at hl
        exact absurd hl.1 (by decide)
      rw [if_neg h2]
      simp [String.append_assoc]
      have hmid : (" = .\x7b " : String) ++ (".rename = \"" ++ (k ++ "\", \x7d,"))
          = " = .\x7b .rename = \"" ++ (k ++ "\", \x7d,") := by
        rw [← String.append_assoc]
        congr 1
      rw [hmid, ← String.append_assoc, ← String.append_assoc]
      congr 1
    rw [← hform]
    exact hmem

/-- C4: when a class or enum has a non-empty rename table, exactly two
structurally symmetric getty metadata blocks are emitted, deserialization
first, each preceded by a blank line, immediately after the field or case
lines of the declaration body; for both kinds of declaration the two blocks
differ only in their header (`getty.db` versus `getty.sb`), and every rename
pair appears as an entry line of the form `.field = .{ .rename =
"externalKey", },`. -/
theorem c4_metadata_blocks (vis : String) (c : ZClassDecl) (e : ZEnumDecl)
    (hc : classRenameFields c.props ≠ []) (he : renamePairs e.cases ≠ []) :
    (emitStructLines vis c =
      ((vis ++ " const " ++ c.name ++ " = struct \x7b")
        :: indentLines
          (concatMap (fun f => f.descLines ++ [f.name ++ ": " ++ propertyZigType f.prop ++ ","]) c.props
            ++ ("" :: emitGettyBlockLines vis (classRenameFields c.props) false
              ++ "" :: emitGettyBlockLines vis (classRenameFields c.props) true)))
        ++ ["\x7d;"])
    ∧ (emitEnumLines vis e =
      e.descLines
        ++ (((vis ++ " const " ++ e.name ++ " = enum \x7b")
          :: indentLines
            (e.cases.map (fun p => p.1 ++ ",")
              ++ ("" :: emitGettyBlockLines vis (renamePairs e.cases) false
                ++ "" :: emitGettyBlockLines vis (renamePairs e.cases) true)))
          ++ ["\x7d;"]))
    ∧ ((emitGettyBlockLines vis (classRenameFields c.props) false).head? =
          some (vis ++ " const @\"getty.db\" = struct \x7b")
        ∧ (emitGettyBlockLines vis (classRenameFields c.props) true).head? =
          some (vis ++ " const @\"getty.sb\" = struct \x7b")
        ∧ (emitGettyBlockLines vis (classRenameFields c.props) false).tail =
          (emitGettyBlockLines vis (classRenameFields c.props) true).tail
        ∧ (∀ p k : String, (p, k) ∈ classRenameFields c.props →
            ("        ." ++ p ++ " = .\x7b .rename = \"" ++ k ++ "\", \x7d,")
              ∈ emitGettyBlockLines vis (classRenameFields c.props) false))
    ∧ ((emitGettyBlockLines vis (renamePairs e.cases) false).head? =
          some (vis ++ " const @\"getty.db\" = struct \x7b")
        ∧ (emitGettyBlockLines vis (renamePairs e.cases) true).head? =
          some (vis ++ " const @\"getty.sb\" = struct \x7b")
        ∧ (emitGettyBlockLines vis (renamePairs e.cases) false).tail =
          (emitGettyBlockLines vis (renamePairs e.cases) true).tail
        ∧ (∀ p k : String, (p, k) ∈ renamePairs e.cases →
            ("        ." ++ p ++ " = .\x7b .rename = \"" ++ k ++ "\", \x7d,")
              ∈ emitGettyBlockLines vis (renamePairs e.cases) false)) := by
  have hlenc : 0 < (classRenameFields c.props).length := List.length_pos.mpr hc
  have hlene : 0 < (renamePairs e.cases).length := List.length_pos.mpr he
  refine ⟨?_, ?_, gettyBlocks_shape vis _, gettyBlocks_shape vis _⟩
  · simp only [emitStructLines, emitBlockLines, structBodyLines, emitSerdeBlocksLines,
      if_pos hlenc]
    simp [String.append_assoc]
  · simp only [emitEnumLines, emitBlockLines, enumBodyLines, emitSerdeBlocksLines,
      if_pos hlene]
    simp [String.append_assoc]

/-- Witness for C4: for a class with the single renamed field
`user_name`/`user-name` and an enum with the single renamed case
`red`/`RED`, the paired getty blocks agree except for their headers and the
entry lines appear in the expected textual form. -/
theorem c4_witness :
    ((emitGettyBlockLines "pub" (classRenameFields personDecl.props) false).tail
      = (emitGettyBlockLines "pub" (classRenameFields personDecl.props) true).tail)
    ∧ ("        .user_name = .\x7b .rename = \"user-name\", \x7d,")
        ∈ emitGettyBlockLines "pub" (classRenameFields personDecl.props) false
    ∧ ((emitGettyBlockLines "pub" (renamePairs colorEnum.cases) false).tail
      = (emitGettyBlockLines "pub" (renamePairs colorEnum.cases) true).tail)
    ∧ ("        .red = .\x7b .rename = \"RED\", \x7d,")
        ∈ emitGettyBlockLines "pub" (renamePairs colorEnum.cases) false := by
  have hc := c4_metadata_blocks "pub" personDecl colorEnum (by decide) (by decide)
  refine ⟨hc.2.2.1.2.2.1, ?_, hc.2.2.2.2.2.1, ?_⟩
  · exact hc.2.2.1.2.2.2 "user_name" "user-name" (by decide)
  · exact hc.2.2.2.2.2.2 "red" "RED" (by decide)

theorem atBlank_pushLines {b : List String} {y : String} (hy : b.getLast? = some y)
    (hne : y ≠ "") (acc : List String) : atBlank (pushLines b acc) = false := by
  rcases hr : b.reverse with _ | ⟨z, t⟩
  · have hb : b = [] := by
      have h2 := congrArg List.reverse hr
      simpa using h2
    rw [hb] at hy
    simp at hy
  · have hz : b.getLast? = some z := by
      rw [← List.head?_reverse, hr]
      rfl
    rw [hy] at hz
    injection hz with hz
    subst hz
    simp [pushLines, hr, atBlank, hne]

theorem foldl_pushLines_nil (items : List (List String)) (acc : List String)
    (h : ∀ b ∈ items, b = []) :
    items.foldl (fun acc ls => pushLines ls acc) acc = acc := by
  induction items generalizing acc with
  | nil => rfl
  | cons b rest ih =>
      have hb : b = [] := h _ (List.mem_cons_self _ _)
      rw [List.foldl_cons, hb]
      exact ih _ (fun b' hb' => h _ (List.mem_cons_of_mem _ hb'))

theorem forEachLeading_nil_bodies (items : List (List String)) (acc : List String)
    (h : ∀ b ∈ items, b = []) :
    forEachLeading items acc = if items.isEmpty then acc else ensureBlank acc := by
  cases items with
  | nil => rfl
  | cons first rest =>
      have hf : first = [] := h _ (List.mem_cons_self _ _)
      simp only [forEachLeading, hf, List.isEmpty_cons]
      rw [foldl_pushLines_nil _ _ (fun b hb => h _ (List.mem_cons_of_mem _ hb))]
      simp [pushLines]

theorem forEachLI_spec (blocks : List (List String)) (acc : List String)
    (hb : ∀ b ∈ blocks, ∃ y, b.getLast? = some y ∧ y ≠ "") :
    forEachLeadingInterposing blocks acc
      = (seqBlocks (atBlank acc) blocks).reverse ++ acc := by
  induction blocks generalizing acc with
  | nil => simp [forEachLeadingInterposing, seqBlocks]
  | cons b rest ih =>
      obtain ⟨y, hy, hne⟩ := hb b (List.mem_cons_self _ _)
      have hstep : forEachLeadingInterposing (b :: rest) acc
          = forEachLeadingInterposing rest (pushLines b (ensureBlank acc)) := by
        simp [forEachLeadingInterposing, List.foldl_cons]
      rw [hstep, ih _ (fun b' hb' => hb b' (List.mem_cons_of_mem _ hb'))]
      rw [atBlank_pushLines hy hne]
      simp only [seqBlocks, pushLines, ensureBlank]
      cases hab : atBlank acc <;>
        simp [hab, List.reverse_append, List.append_assoc]

theorem append_emitBlockLines_getLast (desc : List String) (p last : String)
    (body : List String) :
    ∃ y, (desc ++ emitBlockLines p last body).getLast? = some y ∧ y ≠ "" := by
  refine ⟨"\x7d" ++ last, ?_, ?_⟩
  · rw [emitBlockLines, ← List.append_assoc]
    exact List.getLast?_concat _
  · intro hc
    have hl := congrArg String.length hc
    simp [String.length_append] at hl
    exact absurd hl.1 (by decide)

theorem emitClassLines_ok (vis : String) (c : ZClassDecl) :
    ∃ y, (emitClassLines vis c).getLast? = some y ∧ y ≠ "" := by
  simp only [emitClassLines, emitStructLines]
  exact append_emitBlockLines_getLast _ _ _ _

theorem emitUnionLines_ok (vis : String) (u : ZUnionDecl) :
    ∃ y, (emitUnionLines vis u).getLast? = some y ∧ y ≠ "" := by
  simp only [emitUnionLines]
  exact append_emitBlockLines_getLast _ _ _ _

theorem emitEnumLines_ok (vis : String) (e : ZEnumDecl) :
    ∃ y, (emitEnumLines vis e).getLast? = some y ∧ y ≠ "" := by
  simp only [emitEnumLines]
  exact append_emitBlockLines_getLast _ _ _ _

theorem declBlocks_ok (vis : String) (g : ZigGraph) :
    ∀ b ∈ declBlocks vis g, ∃ y, b.getLast? = some y ∧ y ≠ "" := by
  intro b hb
  simp only [declBlocks, List.mem_append, List.mem_map] at hb
  rcases hb with (⟨c, _, rfl⟩ | ⟨u, _, rfl⟩) | ⟨e, _, rfl⟩
  · exact emitClassLines_ok vis c
  · exact emitUnionLines_ok vis u
  · exact emitEnumLines_ok vis e

/-- C8: in per-declaration mode, opening a file fails (fatal assertion)
exactly when a buffer is already open; closing fails exactly when none is
open; on close the open buffer is moved into the finished-files collection
keyed by its filename; and the filename is the lower-casing of the
declaration's resolved name with the `.zig` extension appended. -/
theorem c8_file_discipline (basename : String) (st : FileState) :
    ((startFile basename st).isOk = true ↔ st.currentFilename = none)
    ∧ ((endFile st).isOk = true ↔ st.currentFilename ≠ none)
    ∧ (st.currentFilename = none →
        startFile basename st =
          .ok { currentFilename := some (jsToLower basename ++ ".zig"),
                currentLines := [],
                finishedFiles := st.finishedFiles })
    ∧ (∀ fn : String, st.currentFilename = some fn →
        endFile st =
          .ok { currentFilename := none,
                currentLines := [],
                finishedFiles := st.finishedFiles ++ [(fn, st.currentLines)] }) := by
  refine ⟨?_, ?_, ?_, ?_⟩
  · cases h : st.currentFilename <;> simp [startFile, h, Except.isOk, Except.toBool]
  · cases h : st.currentFilename <;> simp [endFile, h, Except.isOk, Except.toBool]
  · intro h
    have hz : jsToLower (basename ++ ".zig") = jsToLower basename ++ ".zig" := by
      rw [jsToLower_append]
      congr 1
    simp [startFile, h, hz]
  · intro fn h
    simp [endFile, h]

/-- Witness for C8: from a fresh state, opening `Person` succeeds and produces
the filename `person.zig`; closing moves the buffer into the finished files;
opening while open fails and closing a fresh state fails. -/
theorem c8_witness :
    (startFile "Person" ⟨none, [], []⟩ =
        .ok { currentFilename := some "person.zig", currentLines := [], finishedFiles := [] })
    ∧ (endFile ⟨some "person.zig", ["line"], []⟩ =
        .ok { currentFilename := none, currentLines := [],
              finishedFiles := [("person.zig", ["line"])] })
    ∧ ((startFile "Other" ⟨some "person.zig", [], []⟩).isOk = false)
    ∧ ((endFile ⟨none, [], []⟩).isOk = false) := by
  refine ⟨?_, ?_, ?_, ?_⟩
  · have h := (c8_file_discipline "Person" ⟨none, [], []⟩).2.2.1 rfl
    rw [h]
    congr 1
  · have h := (c8_file_discipline "Person" ⟨some "person.zig", ["line"], []⟩).2.2.2
      "person.zig" rfl
    rw [h]
    rfl
  · have h := (c8_file_discipline "Other" ⟨some "person.zig", [], []⟩).1
    cases hk : (startFile "Other" ⟨some "person.zig", [], []⟩).isOk
    · rfl
    · exact Option.noConfusion (h.mp hk)
  · cases hk : (endFile (⟨none, [], []⟩ : FileState)).isOk
    · rfl
    · have h := (c8_file_discipline "Person" ⟨none, [], []⟩).2.1
      exact absurd rfl (h.mp hk)

/-- C9: `emitTopLevel` has an empty body, so the iteration over the top-level
entries not backed by a named declaration contributes no text at all beyond
its surrounding blank-line separation: the alias pass prepends only blank
lines to the output. -/
theorem c9_pure_alias_silent (g : ZigGraph) (acc : List String) :
    (∀ t : ZType, ∀ nm : String, emitTopLevelLines t nm = [])
    ∧ ∃ pre : List String,
        forEachLeading ((aliasTopLevels g).map (fun tl => emitTopLevelLines tl.2 tl.1)) acc
          = pre ++ acc
        ∧ ∀ s ∈ pre, s = "" := by
  have hnil : ∀ b ∈ (aliasTopLevels g).map (fun tl => emitTopLevelLines tl.2 tl.1), b = [] := by
    intro b hb
    simp only [List.mem_map] at hb
    obtain ⟨tl, _, heq⟩ := hb
    exact heq.symm
  constructor
  · intro t nm
    rfl
  · rw [forEachLeading_nil_bodies _ _ hnil]
    by_cases hemp : ((aliasTopLevels g).map (fun tl => emitTopLevelLines tl.2 tl.1)).isEmpty = true
    · refine ⟨[], ?_, by simp⟩
      rw [if_pos hemp]
      rfl
    · rw [if_neg hemp]
      unfold ensureBlank
      by_cases hab : atBlank acc = true
      · refine ⟨[], ?_, by simp⟩
        rw [if_pos hab]
        rfl
      · refine ⟨[""], ?_, ?_⟩
        · rw [if_neg hab]
          rfl
        · intro s hs
          simpa using hs

/-- C7: the renderer emits, in fixed order: the leading comment block (the
caller-supplied comment verbatim when present, otherwise the generated default
comment — mutually exclusive), a blank line, the prelude import line, the
top-level entries not backed by a named declaration, then all class, all
union, and all enum declarations, with blank-line interposition between
declarations. -/
theorem c7_emission_order (lc : Option (List String)) (vis : String) (g : ZigGraph)
    (h : lc ≠ none ∨ g.topLevels ≠ []) :
    ∃ cs : List String,
      emitLeadingCommentsLines lc g = some cs
      ∧ (∀ ls : List String, lc = some ls → cs = ls)
      ∧ (lc = none → ∃ nm t rest, g.topLevels = (nm, t) :: rest ∧ cs = defaultCommentLines nm)
      ∧ emitSourceStructureLines lc vis g =
          some (cs ++ [""] ++ [preludeLine]
            ++ (if (aliasTopLevels g).isEmpty then [] else [""])
            ++ seqBlocks (!(aliasTopLevels g).isEmpty) (declBlocks vis g)) := by
  obtain ⟨cs, hcs, hsome, hnone⟩ :
      ∃ cs : List String,
        emitLeadingCommentsLines lc g = some cs
        ∧ (∀ ls : List String, lc = some ls → cs = ls)
        ∧ (lc = none →
            ∃ nm t rest, g.topLevels = (nm, t) :: rest ∧ cs = defaultCommentLines nm) := by
    cases lc with
    | some ls =>
        refine ⟨ls, rfl, ?_, ?_⟩
        · intro ls' hls'
          exact Option.some.inj hls'
        · intro hno
          cases hno
    | none =>
        cases hg : g.topLevels with
        | nil =>
            rcases h with h1 | h2
            · exact absurd rfl h1
            · exact absurd hg h2
        | cons tl rest =>
            rcases tl with ⟨nm, t⟩
            refine ⟨defaultCommentLines nm, ?_, ?_, ?_⟩
            · simp [emitLeadingCommentsLines, hg]
            · intro ls' hls'
              cases hls'
            · intro _
              exact ⟨nm, t, rest, rfl, rfl⟩
  refine ⟨cs, hcs, hsome, hnone, ?_⟩
  have hnil : ∀ b ∈ (aliasTopLevels g).map (fun tl => emitTopLevelLines tl.2 tl.1), b = [] := by
    intro b hb
    simp only [List.mem_map] at hb
    obtain ⟨tl, _, heq⟩ := hb
    exact heq.symm
  have hmapEmpty : ((aliasTopLevels g).map (fun tl => emitTopLevelLines tl.2 tl.1)).isEmpty
      = (aliasTopLevels g).isEmpty := by
    cases aliasTopLevels g <;> rfl
  have hacc2 : pushLines [preludeLine] (pushLines [""] (pushLines cs []))
      = preludeLine :: "" :: cs.reverse := by
    simp [pushLines]
  have hblank2 : atBlank (preludeLine :: "" :: cs.reverse) = false := by
    rfl
  have halias : forEachLeading ((aliasTopLevels g).map (fun tl => emitTopLevelLines tl.2 tl.1))
      (preludeLine :: "" :: cs.reverse)
      = (if (aliasTopLevels g).isEmpty then [] else [""])
          ++ (preludeLine :: "" :: cs.reverse) := by
    rw [forEachLeading_nil_bodies _ _ hnil, hmapEmpty]
    by_cases he : (aliasTopLevels g).isEmpty = true
    · rw [if_pos he, if_pos he]
      rfl
    · rw [if_neg he, if_neg he]
      unfold ensureBlank
      rw [hblank2]
      rfl
  have hseqstart : atBlank ((if (aliasTopLevels g).isEmpty then [] else [""])
      ++ (preludeLine :: "" :: cs.reverse)) = !(aliasTopLevels g).isEmpty := by
    by_cases he : (aliasTopLevels g).isEmpty = true
    · rw [if_pos he, he]
      rfl
    · rw [if_neg he]
      simp only [Bool.not_eq_true] at he
      rw [he]
      rfl
  have hcomb : ∀ acc : List String,
      forEachLeadingInterposing (g.enums.map (fun e => emitEnumLines vis e))
        (forEachLeadingInterposing (g.unions.map (fun u => emitUnionLines vis u))
          (forEachLeadingInterposing (g.classes.map (fun c => emitClassLines vis c)) acc))
      = forEachLeadingInterposing (declBlocks vis g) acc := by
    intro acc
    simp [forEachLeadingInterposing, declBlocks, List.foldl_append]
  simp only [emitSourceStructureLines, hcs]
  rw [hacc2, halias, hcomb, forEachLI_spec _ _ (declBlocks_ok vis g), hseqstart]
  by_cases he : (aliasTopLevels g).isEmpty = true
  · rw [if_pos he]
    simp [List.reverse_append, List.append_assoc]
  · rw [if_neg he]
    simp [List.reverse_append, List.append_assoc]

/-- Witness for C7: with no caller-supplied comment and a named top level, the
driver renders the graph in the stated fixed order (with the generated default
comment). -/
theorem c7_witness :
    ∃ cs : List String,
      emitLeadingCommentsLines none sampleGraph = some cs
      ∧ (∀ ls : List String, (none : Option (List String)) = some ls → cs = ls)
      ∧ ((none : Option (List String)) = none →
          ∃ nm t rest, sampleGraph.topLevels = (nm, t) :: rest ∧ cs = defaultCommentLines nm)
      ∧ emitSourceStructureLines none "pub" sampleGraph =
          some (cs ++ [""] ++ [preludeLine]
            ++ (if (aliasTopLevels sampleGraph).isEmpty then [] else [""])
            ++ seqBlocks (!(aliasTopLevels sampleGraph).isEmpty)
                (declBlocks "pub" sampleGraph)) :=
  c7_emission_order none "pub" sampleGraph (Or.inr (by simp [sampleGraph]))

theorem isAlphanum_toLower {c : Char} (h : c.isAlphanum = true) :
    (Char.toLower c).isAlphanum = true := by
  simp only [Char.toLower]
  split
  · rename_i hcond
    obtain ⟨h1, h2⟩ := hcond
    generalize hn : c.toNat = n
    rw [hn] at h1 h2
    interval_cases n <;> decide
  · exact h

theorem isAlphanum_toUpper {c : Char} (h : c.isAlphanum = true) :
    (Char.toUpper c).isAlphanum = true := by
  simp only [Char.toUpper]
  split
  · rename_i hcond
    obtain ⟨h1, h2⟩ := hcond
    generalize hn : c.toNat = n
    rw [hn] at h1 h2
    interval_cases n <;> decide
  · exact h

theorem legalChar_toLower {c : Char} (h : isLetterOrUnderscoreOrDigit c = true) :
    isLetterOrUnderscoreOrDigit (Char.toLower c) = true := by
  unfold isLetterOrUnderscoreOrDigit at h ⊢
  rcases (Bool.or_eq_true _ _).mp h with h1 | h2
  · have h3 := isAlphanum_toLower h1
    simp [h3]
  · have hc : c = '_' := by simpa using h2
    subst hc
    decide

theorem legalChar_toUpper {c : Char} (h : isLetterOrUnderscoreOrDigit c = true) :
    isLetterOrUnderscoreOrDigit (Char.toUpper c) = true := by
  unfold isLetterOrUnderscoreOrDigit at h ⊢
  rcases (Bool.or_eq_true _ _).mp h with h1 | h2
  · have h3 := isAlphanum_toUpper h1
    simp [h3]
  · have hc : c = '_' := by simpa using h2
    subst hc
    decide

theorem legalizeName_ok (w : List Char) :
    ∀ c ∈ legalizeName w, isLetterOrUnderscoreOrDigit c = true := by
  intro c hc
  simp only [legalizeName, List.mem_map] at hc
  obtain ⟨d, _, rfl⟩ := hc
  by_cases hd : isLetterOrUnderscoreOrDigit d = true
  · rw [if_pos hd]
    exact hd
  · rw [if_neg hd]
    decide

theorem styleWord_ok (b : Bool) (w : List Char) :
    ∀ c ∈ styleWord b (legalizeName w), isLetterOrUnderscoreOrDigit c = true := by
  intro c hc
  cases b with
  | true =>
      simp only [styleWord, if_pos, allLowerWordStyle, List.mem_map] at hc
      obtain ⟨d, hd, rfl⟩ := hc
      exact legalChar_toLower (legalizeName_ok w d hd)
  | false =>
      simp only [styleWord, if_neg, Bool.false_eq_true, if_false] at hc
      cases hw : legalizeName w with
      | nil =>
          rw [hw] at hc
          simp [firstUpperWordStyle] at hc
      | cons d ds =>
          rw [hw] at hc
          simp only [firstUpperWordStyle] at hc
          rcases List.mem_cons.mp hc with rfl | hmem
          · have hd : d ∈ legalizeName w := by
              rw [hw]
              exact List.mem_cons_self d ds
            exact legalChar_toUpper (legalizeName_ok w d hd)
          · have hcm : c ∈ legalizeName w := by
              rw [hw]
              exact List.mem_cons_of_mem d hmem
            exact legalizeName_ok w c hcm

theorem mem_joinWords {sep : List Char} {c : Char} :
    ∀ {ws : List (List Char)}, c ∈ joinWords sep ws → c ∈ sep ∨ ∃ w ∈ ws, c ∈ w := by
  intro ws
  induction ws with
  | nil =>
      intro h
      simp [joinWords] at h
  | cons w ws ih =>
      intro h
      cases ws with
      | nil =>
          simp only [joinWords] at h
          exact Or.inr ⟨w, List.mem_cons_self _ _, h⟩
      | cons w2 ws2 =>
          simp only [joinWords] at h
          rcases List.mem_append.mp h with h1 | h2
          · rcases List.mem_append.mp h1 with h3 | h4
            · exact Or.inr ⟨w, List.mem_cons_self _ _, h3⟩
            · exact Or.inl h4
          · rcases ih h2 with h5 | ⟨w', hw', hc'⟩
            · exact Or.inl h5
            · exact Or.inr ⟨w', List.mem_cons_of_mem _ hw', hc'⟩

theorem combineWords_legal (b : Bool) (words : List (List Char)) :
    combineWords b words = [] ∨ isLegalIdentChars (combineWords b words) = true := by
  have hall : ∀ c ∈ joinWords (if b then ['_'] else [])
      (words.map (fun w => styleWord b (legalizeName w))),
      isLetterOrUnderscoreOrDigit c = true := by
    intro c hc
    rcases mem_joinWords hc with hsep | ⟨w', hw', hcw⟩
    · cases b with
      | false => simp at hsep
      | true =>
          simp at hsep
          subst hsep
          decide
    · obtain ⟨w, hw, rfl⟩ := List.mem_map.mp hw'
      exact styleWord_ok b w c hcw
  rcases hj : joinWords (if b then ['_'] else [])
      (words.map (fun w => styleWord b (legalizeName w))) with _ | ⟨c, rest⟩
  · left
    simp [combineWords, hj]
  · right
    have hstep : combineWords b words
        = if isAsciiLetterOrUnderscore c then c :: rest else '_' :: c :: rest := by
      simp [combineWords, hj]
    rw [hstep]
    have hc : isLetterOrUnderscoreOrDigit c = true := by
      refine hall c ?_
      rw [hj]
      exact List.mem_cons_self _ _
    have hrest : ∀ d ∈ rest, (d.isAlphanum || d == '_') = true := by
      intro d hd
      have h2 : d ∈ joinWords (if b then ['_'] else [])
          (words.map (fun w => styleWord b (legalizeName w))) := by
        rw [hj]
        exact List.mem_cons_of_mem _ hd
      simpa [isLetterOrUnderscoreOrDigit] using hall d h2
    by_cases hstart : isAsciiLetterOrUnderscore c = true
    · rw [if_pos hstart]
      simp only [isLegalIdentChars, Bool.and_eq_true, List.all_eq_true]
      exact ⟨hstart, hrest⟩
    · rw [if_neg hstart]
      simp only [isLegalIdentChars, Bool.and_eq_true, List.all_eq_true]
      refine ⟨by decide, ?_⟩
      intro d hd
      rcases List.mem_cons.mp hd with rfl | hd2
      · simpa [isLetterOrUnderscoreOrDigit] using hc
      · exact hrest d hd2

theorem zigNameStyle_legal (original : String) (b : Bool)
    (h : combinedStyle original b ≠ "") :
    isLegalIdentifier (zigNameStyle original b) = true := by
  simp only [zigNameStyle]
  by_cases hc : combinedStyle original b = "_"
  · rw [if_pos hc]
    decide
  · rw [if_neg hc]
    rcases combineWords_legal b (splitIntoWords original) with h0 | h1
    · refine absurd ?_ h
      unfold combinedStyle
      rw [h0]
    · exact h1

theorem length_mk (l : List Char) : (String.mk l).length = l.length :=
  rfl

theorem nameCandidate_length (p : String) (k : Nat) :
    (nameCandidate p k).length = p.length + k := by
  simp [nameCandidate, String.length_append, length_mk]

theorem resolveName_not_mem (p : String) (f : List String) :
    resolveName p f ∉ f := by
  unfold resolveName
  cases hfind : (List.range (f.length + 1)).find?
      (fun k => !(f.contains (nameCandidate p k))) with
  | some k =>
      have hk := List.find?_some hfind
      simp at hk
      exact hk
  | none =>
      exfalso
      have hall : ∀ k ∈ List.range (f.length + 1), nameCandidate p k ∈ f := by
        intro k hk
        have h2 := List.find?_eq_none.mp hfind k hk
        simp at h2
        exact h2
      have hinj : Function.Injective (fun k => nameCandidate p k) := by
        intro i j hij
        have hl := congrArg String.length hij
        simp only [nameCandidate_length] at hl
        omega
      have hnodup : ((List.range (f.length + 1)).map (fun k => nameCandidate p k)).Nodup :=
        List.Nodup.map hinj (List.nodup_range _)
      have hsub : ((List.range (f.length + 1)).map (fun k => nameCandidate p k)) ⊆ f := by
        intro x hx
        obtain ⟨k, hk, rfl⟩ := List.mem_map.mp hx
        exact hall k hk
      have hle := (List.subperm_of_subset hnodup hsub).length_le
      simp [List.length_map, List.length_range] at hle

theorem isLegalIdentChars_append_x (l : List Char) (k : Nat)
    (h : isLegalIdentChars l = true) :
    isLegalIdentChars (l ++ List.replicate k 'x') = true := by
  cases l with
  | nil => simp [isLegalIdentChars] at h
  | cons c rest =>
      simp only [isLegalIdentChars, Bool.and_eq_true, List.all_eq_true] at h
      simp only [List.cons_append, isLegalIdentChars, Bool.and_eq_true, List.all_eq_true]
      refine ⟨h.1, ?_⟩
      intro d hd
      rcases List.mem_append.mp hd with hd1 | hd2
      · exact h.2 d hd1
      · have hx : d = 'x' := List.eq_of_mem_replicate hd2
        subst hx
        decide

theorem nameCandidate_legal {p : String} (k : Nat)
    (h : isLegalIdentifier p = true) :
    isLegalIdentifier (nameCandidate p k) = true := by
  unfold isLegalIdentifier at h ⊢
  unfold nameCandidate
  rw [string_data_append]
  exact isLegalIdentChars_append_x _ _ h

theorem resolveName_shape (p : String) (f : List String) :
    ∃ k, resolveName p f = nameCandidate p k := by
  unfold resolveName
  cases hfind : (List.range (f.length + 1)).find?
      (fun k => !(f.contains (nameCandidate p k))) with
  | some k => exact ⟨k, rfl⟩
  | none =>
      refine ⟨0, ?_⟩
      show p = nameCandidate p 0
      unfold nameCandidate
      rw [show String.mk (List.replicate 0 'x') = "" from rfl, String.append_empty]

/-- C5 counterexample: the empty original styles to the empty combined result
(empty, hence "empty or solely underscores"), but `zigNameStyle` returns it
unchanged instead of the sentinel `_underscore` — the source guard only
replaces the exact single underscore. -/
theorem c5_counterexample :
    combinedStyle "" true = "" ∧ zigNameStyle "" true ≠ "_underscore" := by
  refine ⟨rfl, ?_⟩
  decide

/-- C5 (amended): the sentinel `_underscore` is substituted exactly when the
combined legalized, case-styled result is the single underscore `"_"`; in
particular the naming function never returns `"_"`, while any other combined
result — including the empty string — is returned unchanged. -/
theorem c5_sentinel_guard (original : String) (isSnakeCase : Bool) :
    zigNameStyle original isSnakeCase ≠ "_"
    ∧ (combinedStyle original isSnakeCase ≠ "_" →
        zigNameStyle original isSnakeCase = combinedStyle original isSnakeCase)
    ∧ (combinedStyle original isSnakeCase = "_" →
        zigNameStyle original isSnakeCase = "_underscore") := by
  simp only [zigNameStyle]
  by_cases hc : combinedStyle original isSnakeCase = "_"
  · rw [if_pos hc]
    exact ⟨by decide, fun hne => absurd hc hne, fun _ => rfl⟩
  · rw [if_neg hc]
    exact ⟨hc, fun _ => rfl, fun h' => absurd h' hc⟩

/-- Witness for C5 (amended): a plain word is returned as its combined
styling. -/
theorem c5_witness : zigNameStyle "hello" true = "hello" :=
  (c5_sentinel_guard "hello" true).2.1 (by decide)

/-- C6 counterexample: the empty external key styles to the empty proposal,
which collides with nothing, so the namer emits the empty string — which does
not match `[A-Za-z_][A-Za-z0-9_]*`. -/
theorem c6_counterexample :
    assignName ZigNamespace.objectProperties "" [] = ""
    ∧ isLegalIdentifier "" = false := by
  constructor
  · rfl
  · decide

/-- C6 (amended): whenever the styled combination of the original is
non-empty, the identifier assigned by any of the four namers matches
`[A-Za-z_][A-Za-z0-9_]*`, is none of the reserved keywords (which are seeded
into the forbidden set of all four namespaces), and differs from every name
already assigned in the namespace. -/
theorem c6_legal_identifiers (ns : ZigNamespace) (original : String)
    (assigned : List String)
    (h : combinedStyle original (namerIsSnake ns) ≠ "") :
    isLegalIdentifier (assignName ns original assigned) = true
    ∧ (∀ w ∈ keywords, w ∈ effectiveForbidden ns assigned)
    ∧ assignName ns original assigned ∉ keywords
    ∧ assignName ns original assigned ∉ assigned := by
  have hleg : isLegalIdentifier (zigNameStyle original (namerIsSnake ns)) = true :=
    zigNameStyle_legal _ _ h
  obtain ⟨k, hk⟩ := resolveName_shape (zigNameStyle original (namerIsSnake ns))
    (effectiveForbidden ns assigned)
  have hnotmem : assignName ns original assigned ∉ effectiveForbidden ns assigned := by
    unfold assignName
    exact resolveName_not_mem _ _
  have hseed : ∀ w ∈ keywords, w ∈ effectiveForbidden ns assigned := by
    intro w hw
    cases ns <;>
      simp [effectiveForbidden, forbiddenInfoFor, forbiddenNamesForGlobalNamespace,
        forbiddenForObjectProperties, forbiddenForUnionMembers, forbiddenForEnumCases,
        List.mem_append] <;>
      exact Or.inl hw
  refine ⟨?_, hseed, ?_, ?_⟩
  · unfold assignName
    rw [hk]
    exact nameCandidate_legal k hleg
  · intro hkw
    exact hnotmem (hseed _ hkw)
  · intro has
    apply hnotmem
    cases ns <;>
      simp [effectiveForbidden, forbiddenInfoFor, forbiddenNamesForGlobalNamespace,
        forbiddenForObjectProperties, forbiddenForUnionMembers, forbiddenForEnumCases,
        List.mem_append] <;>
      exact Or.inr has

/-- Witness for C6 (amended): the type namer turns `hello world` into a legal,
keyword-free identifier. -/
theorem c6_witness :
    isLegalIdentifier (assignName ZigNamespace.typeNames "hello world" []) = true
    ∧ (∀ w ∈ keywords, w ∈ effectiveForbidden ZigNamespace.typeNames [])
    ∧ assignName ZigNamespace.typeNames "hello world" [] ∉ keywords
    ∧ assignName ZigNamespace.typeNames "hello world" [] ∉ ([] : List String) :=
  c6_legal_identifiers ZigNamespace.typeNames "hello world" [] (by decide)

end ZigRender
